import Mathlib

/-!
Cost matrix of the branch-and-bound TSP solver.

A shallow embedding of `src/little_tsp_cost_matrix.hpp`: the cost matrix with its
availability flags, the two vector views (`CostRow`, `CostColumn`) with their checked
constructors, and the iterator of a view.  Machine `int` indices are natural numbers;
a C++ constructor that may throw returns an `Except`; the in-place `ReduceMatrix`
returns the new matrix together with its integer result.
-/

namespace LittleTsp

/-! ## Data model -/

/-- Modelled from the spec: `CostMatrixInteger` is only forward-declared in the header
(`class CostMatrixInteger;`).  The spec describes an "infinite-safe" cost: a non-negative
edge weight, or a distinguished sentinel meaning infinite / forbidden. -/
inductive CostMatrixInteger where
  | finite (value : Nat)
  | infinite
  deriving DecidableEq, Repr

/-- Modelled from the spec: `Matrix<T>` comes from `matrix.hpp`, which is not part of the
sources.  The header uses it through `size()`, whose result has a `.first` component, so it
is a grid of cells together with a pair of dimensions. -/
structure Matrix (α : Type) where
  dims : Nat × Nat
  cells : Nat → Nat → α

/-- The pair of dimensions, as used by `cost_matrix_.size().first`. -/
def Matrix.size {α : Type} (M : Matrix α) : Nat × Nat := M.dims

/-- The exception thrown by the view constructors, `NotAvailableError{"..."}`. -/
structure NotAvailableError where
  what : String
  deriving DecidableEq, Repr

/-- The private members of `class CostMatrix` (lines 181-185). -/
structure CostMatrix where
  cost_matrix_ : Matrix CostMatrixInteger
  row_available_ : List Bool
  column_available_ : List Bool

/-- `bool IsRowAvailable(int row_num) const { return row_available_[row_num]; }`.
Indexing a `std::vector` out of range is undefined; the embedding reads `false` there and
every statement below about a flag is made for an index in range. -/
def CostMatrix.IsRowAvailable (m : CostMatrix) (row_num : Nat) : Bool :=
  m.row_available_.getD row_num false

/-- `bool IsColumnAvailable(int column_num) const { return column_available_[column_num]; }`. -/
def CostMatrix.IsColumnAvailable (m : CostMatrix) (column_num : Nat) : Bool :=
  m.column_available_.getD column_num false

/-- `int size() const { return cost_matrix_.size().first; }`. -/
def CostMatrix.size (m : CostMatrix) : Nat :=
  m.cost_matrix_.size.1

/-- The abstract `CostVector` with its two concrete classes.  Virtual dispatch is a case
distinction on the constructor: `row` carries the members of `CostRow` (the matrix
reference of the base class and `row_num_`), `column` those of `CostColumn`. -/
inductive CostVector where
  | row (cost_matrix_ : CostMatrix) (row_num_ : Nat)
  | column (cost_matrix_ : CostMatrix) (column_num_ : Nat)

/-- The base class member `const CostMatrix& cost_matrix_`. -/
def CostVector.cost_matrix_ : CostVector → CostMatrix
  | .row m _ => m
  | .column m _ => m

/-- `GetRow`: `CostRow::GetRow(int) { return row_num_; }` and
`CostColumn::GetRow(int cell_num) { return cell_num; }`. -/
def CostVector.GetRow : CostVector → Nat → Nat
  | .row _ row_num_, _ => row_num_
  | .column _ _, cell_num => cell_num

/-- `GetColumn`: `CostRow::GetColumn(int cell_num) { return cell_num; }` and
`CostColumn::GetColumn(int) { return column_num_; }`. -/
def CostVector.GetColumn : CostVector → Nat → Nat
  | .row _ _, cell_num => cell_num
  | .column _ column_num_, _ => column_num_

/-- The protected `CostVector::IsRowAvailable`, which forwards to the matrix (the header
spells the callee `IsRowAvaiable`; the member of `CostMatrix` it means is
`IsRowAvailable`). -/
def CostVector.IsRowAvailable (v : CostVector) (row_num : Nat) : Bool :=
  v.cost_matrix_.IsRowAvailable row_num

/-- The protected `CostVector::IsColumnAvailable`, which forwards to the matrix. -/
def CostVector.IsColumnAvailable (v : CostVector) (column_num : Nat) : Bool :=
  v.cost_matrix_.IsColumnAvailable column_num

/-- The constructor `CostRow::CostRow(cost_matrix_, row_num)` (lines 123-128): the members
are initialised, then `if (IsRowAvailable(row_num_)) throw NotAvailableError{...}`. -/
def CostRow (cost_matrix_ : CostMatrix) (row_num : Nat) : Except NotAvailableError CostVector :=
  let self := CostVector.row cost_matrix_ row_num
  if self.IsRowAvailable row_num then
    Except.error ⟨"That row is not available"⟩
  else
    Except.ok self

/-- The constructor `CostColumn::CostColumn(cost_matrix, column_num)` (lines 106-112): the
members are initialised, then `if (IsColumnAvailable(column_num_)) throw ...`.  The header
types the first parameter as the raw grid although the base class keeps a `CostMatrix`
reference and asks it for the flag; the embedding passes the `CostMatrix`. -/
def CostColumn (cost_matrix : CostMatrix) (column_num : Nat) :
    Except NotAvailableError CostVector :=
  let self := CostVector.column cost_matrix column_num
  if self.IsColumnAvailable column_num then
    Except.error ⟨"That column is not available"⟩
  else
    Except.ok self

/-- The members of `CostVector::Iterator` (lines 78-79). -/
structure CostVector.Iterator where
  cost_vector_ : CostVector
  traversing_cell_index_ : Nat

/-- `Iterator begin() { return Iterator{*this}; }` with the public constructor that sets
`traversing_cell_index_{0}`. -/
def CostVector.begin (v : CostVector) : CostVector.Iterator :=
  ⟨v, 0⟩

/-- `Iterator end() { return Iterator{*this, cost_matrix_.cost_matrix_.size()}; }` with the
private constructor that sets `traversing_cell_index_{cell_num}`.  (`end` is reserved in
Lean, hence the underscore.)  The grid dimension handed to the `int` parameter is the
first component, the one `CostMatrix::size()` reports. -/
def CostVector.end_ (v : CostVector) : CostVector.Iterator :=
  ⟨v, v.cost_matrix_.cost_matrix_.size.1⟩

/-- The matrix coordinates `(GetRow(k), GetColumn(k))` of cell index `k` of a view. -/
def CostVector.coordinates (v : CostVector) (cell_num : Nat) : Nat × Nat :=
  (v.GetRow cell_num, v.GetColumn cell_num)

/-- Modelled from the spec: which cell indices of a view are live.  The header declares no
such member; the spec says a view ranges "only over available columns (for a row) or
available rows (for a column)". -/
def CostVector.IsCellAvailable : CostVector → Nat → Bool
  | .row m _, cell_num => m.IsColumnAvailable cell_num
  | .column m _, cell_num => m.IsRowAvailable cell_num

/-- Modelled from the spec: the forward scan inside `Iterator::operator++`, which the
header declares without a body.  From index `k` the scan moves on while `k` lies before
the last index and its cell is unavailable ("unavailable positions are skipped by the
iteration"); `fuel` bounds the number of steps. -/
def CostVector.skipUnavailable (v : CostVector) : Nat → Nat → Nat
  | 0, k => k
  | fuel + 1, k =>
    if k < v.cost_matrix_.size ∧ v.IsCellAvailable k = false then
      v.skipUnavailable fuel (k + 1)
    else
      k

/-- Modelled from the spec: `Iterator& operator++()`, declared without a body.  The index
is incremented and then moved past unavailable cells, stopping at the end index. -/
def CostVector.Iterator.next (it : CostVector.Iterator) : CostVector.Iterator :=
  ⟨it.cost_vector_,
    it.cost_vector_.skipUnavailable
      (it.cost_vector_.cost_matrix_.size - (it.traversing_cell_index_ + 1))
      (it.traversing_cell_index_ + 1)⟩

/-- Modelled from the spec: `bool operator!=(Iterator& other)`, declared without a body;
two iterators over one view differ when their cell indices differ. -/
def CostVector.Iterator.ne (it other : CostVector.Iterator) : Bool :=
  it.traversing_cell_index_ != other.traversing_cell_index_

/-- The traversal of a C++ range, `for (it = first; it != last; ++it) visit(*it)`, with
`fuel` bounding the rounds: `operator*` reads `cost_vector_[traversing_cell_index_]`
(line 59), the cell whose matrix coordinates are recorded here. -/
def CostVector.visitFrom (last : CostVector.Iterator) :
    Nat → CostVector.Iterator → List (Nat × Nat)
  | 0, _ => []
  | fuel + 1, it =>
    if it.ne last then
      it.cost_vector_.coordinates it.traversing_cell_index_ :: visitFrom last fuel it.next
    else
      []

/-- The cells visited by iterating a view from `begin()` to `end()`.  Each `++` moves the
index forward, so `size() + 1` rounds exhaust the loop. -/
def CostVector.visited (v : CostVector) : List (Nat × Nat) :=
  CostVector.visitFrom v.end_ (v.cost_matrix_.size + 1) v.begin

/-- The live cells of a view in ascending index order: what the spec says an iteration
visits. -/
def CostVector.liveCells (v : CostVector) : List (Nat × Nat) :=
  ((List.range v.cost_matrix_.size).filter v.IsCellAvailable).map v.coordinates

/-! ## Reduction -/

/-- Modelled from the spec: the smaller of two costs, the infinite sentinel being the
largest. -/
def CostMatrixInteger.min : CostMatrixInteger → CostMatrixInteger → CostMatrixInteger
  | .finite a, .finite b => .finite (Nat.min a b)
  | .finite a, .infinite => .finite a
  | .infinite, b => b

/-- Modelled from the spec: subtracting a finite amount from a cost; the infinite sentinel
stays infinite ("must saturate rather than wrap"). -/
def CostMatrixInteger.sub : CostMatrixInteger → Nat → CostMatrixInteger
  | .finite a, k => .finite (a - k)
  | .infinite, _ => .infinite

/-- The minimum of a sequence of costs; infinite for the empty sequence. -/
def minimumOf (l : List CostMatrixInteger) : CostMatrixInteger :=
  l.foldr CostMatrixInteger.min .infinite

/-- The matrix with its cells replaced; dimensions and flags are kept. -/
def CostMatrix.withCells (m : CostMatrix) (f : Nat → Nat → CostMatrixInteger) : CostMatrix :=
  ⟨⟨m.cost_matrix_.dims, f⟩, m.row_available_, m.column_available_⟩

/-- The available column indices below `size()`, ascending. -/
def CostMatrix.availableColumns (m : CostMatrix) : List Nat :=
  (List.range m.size).filter m.IsColumnAvailable

/-- The available row indices below `size()`, ascending. -/
def CostMatrix.availableRows (m : CostMatrix) : List Nat :=
  (List.range m.size).filter m.IsRowAvailable

/-- The minimum of row `r` among its cells in available columns. -/
def CostMatrix.rowMinimum (m : CostMatrix) (r : Nat) : CostMatrixInteger :=
  minimumOf (m.availableColumns.map fun c => m.cost_matrix_.cells r c)

/-- The minimum of column `c` among its cells in available rows. -/
def CostMatrix.columnMinimum (m : CostMatrix) (c : Nat) : CostMatrixInteger :=
  minimumOf (m.availableRows.map fun r => m.cost_matrix_.cells r c)

/-- Subtract `k` from every available cell of row `r`. -/
def CostMatrix.subtractFromRow (m : CostMatrix) (r k : Nat) : CostMatrix :=
  m.withCells fun i j =>
    if i = r ∧ j ∈ m.availableColumns then (m.cost_matrix_.cells i j).sub k
    else m.cost_matrix_.cells i j

/-- Subtract `k` from every available cell of column `c`. -/
def CostMatrix.subtractFromColumn (m : CostMatrix) (c k : Nat) : CostMatrix :=
  m.withCells fun i j =>
    if j = c ∧ i ∈ m.availableRows then (m.cost_matrix_.cells i j).sub k
    else m.cost_matrix_.cells i j

/-- Modelled from the spec: step 1 of the reduction for one row, on the pair (matrix,
running total).  "For every available row, find the minimum value among its available
columns.  If that minimum is finite and > 0, subtract it from every available cell in the
row and add it to the running reduction total"; a row without available columns has the
minimum of the empty sequence and is skipped. -/
def CostMatrix.reduceRow (state : CostMatrix × Nat) (r : Nat) : CostMatrix × Nat :=
  if state.1.IsRowAvailable r then
    match state.1.rowMinimum r with
    | .finite k => if 0 < k then (state.1.subtractFromRow r k, state.2 + k) else state
    | .infinite => state
  else
    state

/-- Modelled from the spec: step 2 of the reduction for one column, "symmetrically for
every available column using available rows". -/
def CostMatrix.reduceColumn (state : CostMatrix × Nat) (c : Nat) : CostMatrix × Nat :=
  if state.1.IsColumnAvailable c then
    match state.1.columnMinimum c with
    | .finite k => if 0 < k then (state.1.subtractFromColumn c k, state.2 + k) else state
    | .infinite => state
  else
    state

/-- Modelled from the spec: `int ReduceMatrix()`, declared in the header (line 19) without
a body.  Row reduction over rows `0 .. size()-1`, then column reduction over columns
`0 .. size()-1` on the row-reduced matrix; the in-place mutation is the first component of
the result, the returned total the second. -/
def CostMatrix.ReduceMatrix (m : CostMatrix) : CostMatrix × Nat :=
  (List.range m.size).foldl CostMatrix.reduceColumn
    ((List.range m.size).foldl CostMatrix.reduceRow (m, 0))

/-- Whether row `r` has a finite cell in an available column. -/
def CostMatrix.rowHasFinite (m : CostMatrix) (r : Nat) : Bool :=
  m.availableColumns.any fun c => m.cost_matrix_.cells r c != .infinite

/-- Whether column `c` has a finite cell in an available row. -/
def CostMatrix.columnHasFinite (m : CostMatrix) (c : Nat) : Bool :=
  m.availableRows.any fun r => m.cost_matrix_.cells r c != .infinite

/-- A cost lowered by a line minimum: by `k` when the minimum is `finite k`, unchanged when
the minimum is infinite. -/
def CostMatrixInteger.subMin (x : CostMatrixInteger) : CostMatrixInteger → CostMatrixInteger
  | .finite k => x.sub k
  | .infinite => x

/-- The matrix mirrored along its diagonal, flags exchanged, dimensions kept: it turns a
statement about rows into the same statement about columns. -/
def CostMatrix.mirror (m : CostMatrix) : CostMatrix :=
  ⟨⟨m.cost_matrix_.dims, fun i j => m.cost_matrix_.cells j i⟩,
    m.column_available_, m.row_available_⟩

/-- The mirror of the matrix of a reduction state. -/
def CostMatrix.mirrorState (state : CostMatrix × Nat) : CostMatrix × Nat :=
  (state.1.mirror, state.2)

/-- The cells after the row pass, in closed form. -/
def CostMatrix.rowReduced (m : CostMatrix) (i j : Nat) : CostMatrixInteger :=
  if i ∈ m.availableRows ∧ j ∈ m.availableColumns then
    (m.cost_matrix_.cells i j).subMin (m.rowMinimum i)
  else m.cost_matrix_.cells i j

/-- The cells after the row pass and the column pass, in closed form. -/
def CostMatrix.fullyReduced (m : CostMatrix) (i j : Nat) : CostMatrixInteger :=
  if i ∈ m.availableRows ∧ j ∈ m.availableColumns then
    (m.rowReduced i j).subMin (minimumOf (m.availableRows.map fun r => m.rowReduced r j))
  else m.rowReduced i j

/-! ## Concrete matrices used in the evaluations -/

/-- A 2 x 2 grid with finite off-diagonal costs and a forbidden diagonal. -/
def grid2 : Matrix CostMatrixInteger :=
  ⟨(2, 2), fun r c => if r = c then .infinite else .finite (3 * r + c + 4)⟩

/-- Another 2 x 2 grid, with different cell values. -/
def grid2b : Matrix CostMatrixInteger :=
  ⟨(2, 2), fun _ _ => .finite 9⟩

/-- Every row and column of `grid2` available. -/
def allAvailable2 : CostMatrix := ⟨grid2, [true, true], [true, true]⟩

/-- Row 1 of `grid2` marked unavailable. -/
def rowOneUsed : CostMatrix := ⟨grid2, [true, false], [true, true]⟩

/-- Column 0 of `grid2` marked unavailable. -/
def columnZeroUsed : CostMatrix := ⟨grid2, [true, true], [false, true]⟩

/-- Row 1 and column 0 of `grid2b` marked unavailable. -/
def bothUsed : CostMatrix := ⟨grid2b, [true, false], [false, true]⟩

/-- The 2-city grid with edge (0, 1) excluded: row 0 is forbidden throughout, the only
finite cost is that of edge (1, 0). -/
def gridExcluded : Matrix CostMatrixInteger :=
  ⟨(2, 2), fun r c => if r = 1 ∧ c = 0 then .finite 7 else .infinite⟩

/-- Every row and column of `gridExcluded` available. -/
def excludedEdge : CostMatrix := ⟨gridExcluded, [true, true], [true, true]⟩

/-- Rows of `grid2` available and no column: every row has zero available cells. -/
def noColumnLeft : CostMatrix := ⟨grid2, [true, true], [false, false]⟩

/-! ## The view constructors -/

/-- Claim C1, evaluated on the code: row 1 of `rowOneUsed` is in range and marked
unavailable, yet constructing its `CostRow` returns the view and raises nothing. -/
theorem costRow_unavailable_row_constructs :
    rowOneUsed.size = 2 ∧ rowOneUsed.IsRowAvailable 1 = false ∧
      CostRow rowOneUsed 1 = Except.ok (CostVector.row rowOneUsed 1) := by
  refine ⟨rfl, rfl, rfl⟩

/-- Claim C2, evaluated on the code: column 0 of `columnZeroUsed` is in range and marked
unavailable, yet constructing its `CostColumn` returns the view and raises nothing. -/
theorem costColumn_unavailable_column_constructs :
    columnZeroUsed.size = 2 ∧ columnZeroUsed.IsColumnAvailable 0 = false ∧
      CostColumn columnZeroUsed 0 = Except.ok (CostVector.column columnZeroUsed 0) := by
  refine ⟨rfl, rfl, rfl⟩

/-- Claim C3, evaluated on the code: row 0 and column 1 of `allAvailable2` are available,
and constructing either view raises `NotAvailableError`. -/
theorem available_views_throw :
    allAvailable2.IsRowAvailable 0 = true ∧ allAvailable2.IsColumnAvailable 1 = true ∧
      CostRow allAvailable2 0 = Except.error ⟨"That row is not available"⟩ ∧
      CostColumn allAvailable2 1 = Except.error ⟨"That column is not available"⟩ := by
  refine ⟨rfl, rfl, rfl, rfl⟩

/-- The guard of `CostRow::CostRow` on every input: the constructor throws exactly when
the requested row is available. -/
theorem costRow_throws_iff (m : CostMatrix) (r : Nat) :
    (∃ e, CostRow m r = Except.error e) ↔ m.IsRowAvailable r = true := by
  simp only [CostRow, CostVector.IsRowAvailable, CostVector.cost_matrix_]
  by_cases h : m.IsRowAvailable r = true <;> simp [h]

/-- The guard of `CostColumn::CostColumn` on every input: the constructor throws exactly
when the requested column is available. -/
theorem costColumn_throws_iff (m : CostMatrix) (c : Nat) :
    (∃ e, CostColumn m c = Except.error e) ↔ m.IsColumnAvailable c = true := by
  simp only [CostColumn, CostVector.IsColumnAvailable, CostVector.cost_matrix_]
  by_cases h : m.IsColumnAvailable c = true <;> simp [h]

/-- Claim C8: whether `CostRow(m, r)` throws is decided by the flag of row `r` alone, and
whether `CostColumn(m, c)` throws by the flag of column `c` alone: two matrices that agree
on that one flag fail together or succeed together, whatever their cells and other flags. -/
theorem construction_decided_by_flag (m1 m2 : CostMatrix) (r : Nat)
    (hr : m1.IsRowAvailable r = m2.IsRowAvailable r)
    (n1 n2 : CostMatrix) (c : Nat)
    (hc : n1.IsColumnAvailable c = n2.IsColumnAvailable c) :
    ((∃ e, CostRow m1 r = Except.error e) ↔ (∃ e, CostRow m2 r = Except.error e)) ∧
      ((∃ e, CostColumn n1 c = Except.error e) ↔ (∃ e, CostColumn n2 c = Except.error e)) := by
  constructor
  · simp only [CostRow, CostVector.IsRowAvailable, CostVector.cost_matrix_, hr]
    by_cases h : m2.IsRowAvailable r = true <;> simp [h]
  · simp only [CostColumn, CostVector.IsColumnAvailable, CostVector.cost_matrix_, hc]
    by_cases h : n2.IsColumnAvailable c = true <;> simp [h]

/-- Witness for C8: `rowOneUsed` and `bothUsed` differ in cells and in column flags and
agree on the flag of row 1; `columnZeroUsed` and `bothUsed` agree on the flag of column 0. -/
theorem construction_decided_by_flag_witness :
    rowOneUsed.IsRowAvailable 1 = bothUsed.IsRowAvailable 1 ∧
      columnZeroUsed.IsColumnAvailable 0 = bothUsed.IsColumnAvailable 0 ∧
      (((∃ e, CostRow rowOneUsed 1 = Except.error e) ↔
          (∃ e, CostRow bothUsed 1 = Except.error e)) ∧
        ((∃ e, CostColumn columnZeroUsed 0 = Except.error e) ↔
          (∃ e, CostColumn bothUsed 0 = Except.error e))) :=
  ⟨rfl, rfl, construction_decided_by_flag rowOneUsed bothUsed 1 rfl columnZeroUsed bothUsed 0 rfl⟩

/-! ## Iterating a view -/

/-- Looping from the index where the scan started at `k` stops visits the live cells from
`k` on, in ascending order. -/
theorem skipUnavailable_visit (v : CostVector) :
    ∀ (fuel k rounds : Nat), k + fuel = v.cost_matrix_.size → fuel < rounds →
      CostVector.visitFrom v.end_ rounds ⟨v, v.skipUnavailable fuel k⟩ =
        ((List.range' k fuel).filter v.IsCellAvailable).map v.coordinates := by
  intro fuel
  induction fuel with
  | zero =>
    intro k rounds hk hr
    obtain ⟨n, rfl⟩ : ∃ n, rounds = n + 1 := ⟨rounds - 1, by omega⟩
    have hk2 : k = v.cost_matrix_.cost_matrix_.size.1 := by
      simpa [CostMatrix.size] using hk
    simp [CostVector.skipUnavailable, CostVector.visitFrom, CostVector.Iterator.ne,
      CostVector.end_, hk2]
  | succ fuel ih =>
    intro k rounds hk hr
    obtain ⟨n, rfl⟩ : ∃ n, rounds = n + 1 := ⟨rounds - 1, by omega⟩
    have hlt : k < v.cost_matrix_.size := by omega
    have hne : k ≠ v.cost_matrix_.cost_matrix_.size.1 := by
      have := hlt
      simp only [CostMatrix.size] at this
      omega
    by_cases ha : v.IsCellAvailable k = true
    · have hstep : v.cost_matrix_.size - (k + 1) = fuel := by omega
      simp [CostVector.skipUnavailable, ha, CostVector.visitFrom, CostVector.Iterator.ne,
        CostVector.end_, hne, CostVector.Iterator.next, hstep, List.range'_succ,
        List.filter_cons]
      exact ih (k + 1) n (by omega) (by omega)
    · have ha2 : v.IsCellAvailable k = false := by simpa using ha
      simp only [CostVector.skipUnavailable, hlt, ha2, and_self, if_true, List.range'_succ,
        List.filter_cons, Bool.false_eq_true, if_false]
      exact ih (k + 1) (n + 1) (by omega) (by omega)

/-- What the embedded loop visits: nothing for an empty grid; otherwise cell index 0,
where `begin()` starts whatever its availability, followed by the live cells after it in
ascending order. -/
theorem visited_eq (v : CostVector) :
    v.visited =
      if v.cost_matrix_.size = 0 then []
      else v.coordinates 0 ::
        ((List.range' 1 (v.cost_matrix_.size - 1)).filter v.IsCellAvailable).map
          v.coordinates := by
  by_cases h0 : v.cost_matrix_.size = 0
  · have h0b : v.cost_matrix_.cost_matrix_.size.1 = 0 := by simpa [CostMatrix.size] using h0
    simp [CostVector.visited, CostVector.visitFrom, CostVector.Iterator.ne, CostVector.begin,
      CostVector.end_, h0, h0b]
  · have h0b : ¬ (0 = v.cost_matrix_.cost_matrix_.size.1) := by
      intro h; exact h0 (by simpa [CostMatrix.size] using h.symm)
    simp only [CostVector.visited, CostVector.visitFrom, CostVector.Iterator.ne,
      CostVector.begin, CostVector.end_, h0, if_false, bne_iff_ne, ne_eq, h0b,
      not_false_eq_true, if_true, CostVector.Iterator.next, Nat.zero_add]
    congr 1
    exact skipUnavailable_visit v (v.cost_matrix_.size - 1) 1 v.cost_matrix_.size
      (by omega) (by omega)

/-- When cell index 0 is live, the loop visits exactly the live cells in ascending order. -/
theorem visited_eq_liveCells (v : CostVector) (h : v.IsCellAvailable 0 = true) :
    v.visited = v.liveCells := by
  rw [visited_eq]
  by_cases h0 : v.cost_matrix_.size = 0
  · simp [h0, CostVector.liveCells]
  · obtain ⟨n, hn⟩ : ∃ n, v.cost_matrix_.size = n + 1 := ⟨v.cost_matrix_.size - 1, by omega⟩
    simp [h0, CostVector.liveCells, hn, List.range_eq_range', List.range'_succ,
      List.filter_cons, h]

/-- Claim C5, evaluated on the code: in `columnZeroUsed` row 1 is available and column 0
is not.  Constructing the row view throws; and on the view object itself the loop from
`begin()` to `end()` visits cell (1, 0), in the unavailable column, before cell (1, 1),
whereas the live cells of the row are (1, 1) alone. -/
theorem iteration_visits_unavailable_first_cell :
    columnZeroUsed.IsRowAvailable 1 = true ∧ columnZeroUsed.IsColumnAvailable 0 = false ∧
      CostRow columnZeroUsed 1 = Except.error ⟨"That row is not available"⟩ ∧
      (CostVector.row columnZeroUsed 1).visited = [(1, 0), (1, 1)] ∧
      (CostVector.row columnZeroUsed 1).liveCells = [(1, 1)] := by
  refine ⟨rfl, rfl, rfl, rfl, rfl⟩

/-! ## Dimension and coordinates -/

/-- Claim C4: `size()` is the first dimension of the underlying cost grid and nothing
else: matrices over the same grid have the same `size()` whatever their availability
flags are, so changing any flag leaves `size()` unchanged. -/
theorem size_ignores_availability (grid : Matrix CostMatrixInteger)
    (rows cols rows2 cols2 : List Bool) :
    (CostMatrix.mk grid rows cols).size = grid.size.1 ∧
      (CostMatrix.mk grid rows cols).size = (CostMatrix.mk grid rows2 cols2).size :=
  ⟨rfl, rfl⟩

/-- Claim C7: a `CostRow` over row `r` maps cell index `k` to `(r, k)`, a `CostColumn`
over column `c` maps it to `(k, c)`, and over the same index `i` the coordinates of the
column view are the swap of those of the row view. -/
theorem view_coordinates (m : CostMatrix) (r c i k : Nat) :
    ((CostVector.row m r).GetRow k = r ∧ (CostVector.row m r).GetColumn k = k) ∧
      ((CostVector.column m c).GetRow k = k ∧ (CostVector.column m c).GetColumn k = c) ∧
      (CostVector.column m i).coordinates k = ((CostVector.row m i).coordinates k).swap :=
  ⟨⟨rfl, rfl⟩, ⟨rfl, rfl⟩, rfl⟩

/-- Claim C9: `begin()` sits at cell index 0 and `end()` at the grid dimension `N`
reported by `size()`, for a row view and for a column view alike, whatever the
availability flags are; the index range between them has length `N`. -/
theorem begin_end_indices (grid : Matrix CostMatrixInteger) (rows cols : List Bool)
    (i : Nat) (v : CostVector) :
    (v.begin.traversing_cell_index_ = 0 ∧
        v.end_.traversing_cell_index_ = v.cost_matrix_.size ∧
        v.end_.traversing_cell_index_ - v.begin.traversing_cell_index_ = v.cost_matrix_.size) ∧
      ((CostVector.row ⟨grid, rows, cols⟩ i).end_.traversing_cell_index_ = grid.size.1 ∧
        (CostVector.column ⟨grid, rows, cols⟩ i).end_.traversing_cell_index_ = grid.size.1) :=
  ⟨⟨rfl, rfl, rfl⟩, rfl, rfl⟩

/-! ## Reduction: auxiliary facts -/

theorem CostMatrixInteger.sub_zero (x : CostMatrixInteger) : x.sub 0 = x := by
  cases x <;> simp [CostMatrixInteger.sub]

theorem CostMatrixInteger.subMin_infinite (y : CostMatrixInteger) :
    CostMatrixInteger.infinite.subMin y = .infinite := by
  cases y <;> simp [CostMatrixInteger.subMin, CostMatrixInteger.sub]

theorem CostMatrixInteger.subMin_ne_infinite (x y : CostMatrixInteger)
    (hx : x ≠ .infinite) : x.subMin y ≠ .infinite := by
  cases x <;> cases y <;> simp_all [CostMatrixInteger.subMin, CostMatrixInteger.sub]

theorem CostMatrixInteger.subMin_self (k : Nat) :
    (CostMatrixInteger.finite k).subMin (.finite k) = .finite 0 := by
  simp [CostMatrixInteger.subMin, CostMatrixInteger.sub]

/-- The minimum is infinite exactly when every entry is. -/
theorem minimumOf_eq_infinite_iff (l : List CostMatrixInteger) :
    minimumOf l = .infinite ↔ ∀ x ∈ l, x = .infinite := by
  induction l with
  | nil => simp [minimumOf]
  | cons a t ih =>
    have hstep : minimumOf (a :: t) = a.min (minimumOf t) := rfl
    rw [hstep]
    cases a with
    | finite n =>
      cases hm : minimumOf t <;> simp [CostMatrixInteger.min]
    | infinite =>
      simp [CostMatrixInteger.min, ih]

/-- A finite minimum is attained by an entry. -/
theorem minimumOf_mem (l : List CostMatrixInteger) (k : Nat)
    (h : minimumOf l = .finite k) : CostMatrixInteger.finite k ∈ l := by
  induction l generalizing k with
  | nil => simp [minimumOf] at h
  | cons a t ih =>
    have hstep : minimumOf (a :: t) = a.min (minimumOf t) := rfl
    rw [hstep] at h
    cases a with
    | finite n =>
      cases hm : minimumOf t with
      | finite b =>
        rw [hm] at h
        simp only [CostMatrixInteger.min, CostMatrixInteger.finite.injEq] at h
        by_cases hnb : n ≤ b
        · have : k = n := by rw [← h]; exact Nat.min_eq_left hnb
          simp [this]
        · have : k = b := by rw [← h]; exact Nat.min_eq_right (by omega)
          rw [this]
          exact List.mem_cons_of_mem _ (ih b hm)
      | infinite =>
        rw [hm] at h
        simp only [CostMatrixInteger.min, CostMatrixInteger.finite.injEq] at h
        simp [h]
    | infinite =>
      simp only [CostMatrixInteger.min] at h
      exact List.mem_cons_of_mem _ (ih k h)

/-- A finite minimum is below every finite entry. -/
theorem minimumOf_le (l : List CostMatrixInteger) (k n : Nat)
    (h : minimumOf l = .finite k) (hn : CostMatrixInteger.finite n ∈ l) : k ≤ n := by
  induction l generalizing k with
  | nil => simp at hn
  | cons a t ih =>
    have hstep : minimumOf (a :: t) = a.min (minimumOf t) := rfl
    rw [hstep] at h
    rcases List.mem_cons.1 hn with hhead | htail
    · subst hhead
      cases hm : minimumOf t with
      | finite b =>
        rw [hm] at h
        simp only [CostMatrixInteger.min, CostMatrixInteger.finite.injEq] at h
        rw [← h]; exact Nat.min_le_left _ _
      | infinite =>
        rw [hm] at h
        simp only [CostMatrixInteger.min, CostMatrixInteger.finite.injEq] at h
        omega
    · cases a with
      | finite a0 =>
        cases hm : minimumOf t with
        | finite b =>
          rw [hm] at h
          simp only [CostMatrixInteger.min, CostMatrixInteger.finite.injEq] at h
          have := ih b hm htail
          have h2 : Nat.min a0 b ≤ b := Nat.min_le_right _ _
          omega
        | infinite =>
          have := (minimumOf_eq_infinite_iff t).1 hm _ htail
          simp at this
      | infinite =>
        simp only [CostMatrixInteger.min] at h
        exact ih k h htail

/-- A sequence of costs containing 0 has minimum 0. -/
theorem minimumOf_eq_zero (l : List CostMatrixInteger)
    (h : CostMatrixInteger.finite 0 ∈ l) : minimumOf l = .finite 0 := by
  cases hm : minimumOf l with
  | finite k =>
    have := minimumOf_le l k 0 hm h
    have hk : k = 0 := by omega
    rw [hk]
  | infinite =>
    have := (minimumOf_eq_infinite_iff l).1 hm _ h
    simp at this

theorem CostMatrix.mem_availableColumns (m : CostMatrix) (j : Nat) :
    j ∈ m.availableColumns ↔ j < m.size ∧ m.IsColumnAvailable j = true := by
  simp [CostMatrix.availableColumns]

theorem CostMatrix.mem_availableRows (m : CostMatrix) (i : Nat) :
    i ∈ m.availableRows ↔ i < m.size ∧ m.IsRowAvailable i = true := by
  simp [CostMatrix.availableRows]

theorem CostMatrix.withCells_cells (m : CostMatrix) (f : Nat → Nat → CostMatrixInteger) :
    (m.withCells f).cost_matrix_.cells = f := rfl

theorem CostMatrix.withCells_IsRowAvailable (m : CostMatrix)
    (f : Nat → Nat → CostMatrixInteger) :
    (m.withCells f).IsRowAvailable = m.IsRowAvailable := rfl

theorem CostMatrix.withCells_IsColumnAvailable (m : CostMatrix)
    (f : Nat → Nat → CostMatrixInteger) :
    (m.withCells f).IsColumnAvailable = m.IsColumnAvailable := rfl

theorem CostMatrix.withCells_availableColumns (m : CostMatrix)
    (f : Nat → Nat → CostMatrixInteger) :
    (m.withCells f).availableColumns = m.availableColumns := rfl

theorem CostMatrix.withCells_availableRows (m : CostMatrix)
    (f : Nat → Nat → CostMatrixInteger) :
    (m.withCells f).availableRows = m.availableRows := rfl

theorem CostMatrix.withCells_rowMinimum (m : CostMatrix)
    (f : Nat → Nat → CostMatrixInteger) (r : Nat) :
    (m.withCells f).rowMinimum r = minimumOf (m.availableColumns.map fun c => f r c) := rfl

theorem CostMatrix.withCells_columnMinimum (m : CostMatrix)
    (f : Nat → Nat → CostMatrixInteger) (c : Nat) :
    (m.withCells f).columnMinimum c = minimumOf (m.availableRows.map fun r => f r c) := rfl

theorem CostMatrix.withCells_withCells (m : CostMatrix)
    (f g : Nat → Nat → CostMatrixInteger) :
    (m.withCells f).withCells g = m.withCells g := rfl

/-- One row step, as a replacement of cells. -/
theorem CostMatrix.reduceRow_fst (s : CostMatrix × Nat) (r : Nat) :
    (CostMatrix.reduceRow s r).1 = s.1.withCells fun i j =>
      if i = r ∧ s.1.IsRowAvailable r = true ∧ j ∈ s.1.availableColumns then
        (s.1.cost_matrix_.cells i j).subMin (s.1.rowMinimum r)
      else s.1.cost_matrix_.cells i j := by
  unfold CostMatrix.reduceRow
  by_cases ha : s.1.IsRowAvailable r = true
  · simp only [ha, if_true, true_and]
    cases hm : s.1.rowMinimum r with
    | finite k =>
      by_cases hk : 0 < k
      · simp only [hk, if_true, CostMatrix.subtractFromRow, CostMatrixInteger.subMin]
      · have hk0 : k = 0 := by omega
        subst hk0
        simp [CostMatrix.withCells, CostMatrixInteger.subMin, CostMatrixInteger.sub_zero]
    | infinite =>
      simp [CostMatrix.withCells, CostMatrixInteger.subMin]
  · simp [ha, CostMatrix.withCells]

/-- The row pass over distinct rows, as a replacement of cells. -/
theorem CostMatrix.foldl_reduceRow_fst (l : List Nat) (hl : l.Nodup) (s : CostMatrix × Nat) :
    (l.foldl CostMatrix.reduceRow s).1 = s.1.withCells fun i j =>
      if i ∈ l ∧ s.1.IsRowAvailable i = true ∧ j ∈ s.1.availableColumns then
        (s.1.cost_matrix_.cells i j).subMin (s.1.rowMinimum i)
      else s.1.cost_matrix_.cells i j := by
  induction l generalizing s with
  | nil => simp [CostMatrix.withCells]
  | cons r t ih =>
    have hr : r ∉ t := (List.nodup_cons.1 hl).1
    rw [List.foldl_cons, ih (List.nodup_cons.1 hl).2, CostMatrix.reduceRow_fst]
    simp only [CostMatrix.withCells_withCells, CostMatrix.withCells_IsRowAvailable,
      CostMatrix.withCells_availableColumns, CostMatrix.withCells_cells,
      CostMatrix.withCells_rowMinimum]
    congr 1
    funext i j
    by_cases hi : i = r
    · subst hi
      simp [hr]
    · have hmin : (minimumOf (s.1.availableColumns.map fun c =>
          if i = r ∧ s.1.IsRowAvailable r = true ∧ c ∈ s.1.availableColumns then
            (s.1.cost_matrix_.cells i c).subMin (s.1.rowMinimum r)
          else s.1.cost_matrix_.cells i c)) = s.1.rowMinimum i := by
        simp [hi, CostMatrix.rowMinimum]
      rw [hmin]
      simp [hi]

theorem CostMatrix.mirror_mirror (m : CostMatrix) : m.mirror.mirror = m := rfl

theorem CostMatrix.mirrorState_mirrorState (s : CostMatrix × Nat) :
    CostMatrix.mirrorState (CostMatrix.mirrorState s) = s := rfl

/-- A column step is a row step on the mirrored matrix. -/
theorem CostMatrix.reduceColumn_eq_mirror (s : CostMatrix × Nat) (c : Nat) :
    CostMatrix.reduceColumn s c =
      CostMatrix.mirrorState (CostMatrix.reduceRow (CostMatrix.mirrorState s) c) := by
  have hav : (CostMatrix.mirrorState s).1.IsRowAvailable c = s.1.IsColumnAvailable c := rfl
  have hmin : (CostMatrix.mirrorState s).1.rowMinimum c = s.1.columnMinimum c := rfl
  unfold CostMatrix.reduceColumn CostMatrix.reduceRow
  rw [hav, hmin]
  by_cases ha : s.1.IsColumnAvailable c = true
  · simp only [ha, if_true]
    cases s.1.columnMinimum c with
    | finite k =>
      by_cases hk : 0 < k
      · simp only [hk, if_true]
        rfl
      · simp only [hk, if_false]
        rfl
    | infinite => rfl
  · simp only [ha]
    rfl

/-- The column pass is the row pass on the mirrored matrix. -/
theorem CostMatrix.foldl_reduceColumn_eq_mirror (l : List Nat) (s : CostMatrix × Nat) :
    l.foldl CostMatrix.reduceColumn s =
      CostMatrix.mirrorState (l.foldl CostMatrix.reduceRow (CostMatrix.mirrorState s)) := by
  induction l generalizing s with
  | nil => rfl
  | cons c t ih =>
    rw [List.foldl_cons, List.foldl_cons, ih, CostMatrix.reduceColumn_eq_mirror,
      CostMatrix.mirrorState_mirrorState]

/-- The column pass over distinct columns, as a replacement of cells. -/
theorem CostMatrix.foldl_reduceColumn_fst (l : List Nat) (hl : l.Nodup)
    (s : CostMatrix × Nat) :
    (l.foldl CostMatrix.reduceColumn s).1 = s.1.withCells fun i j =>
      if j ∈ l ∧ s.1.IsColumnAvailable j = true ∧ i ∈ s.1.availableRows then
        (s.1.cost_matrix_.cells i j).subMin (s.1.columnMinimum j)
      else s.1.cost_matrix_.cells i j := by
  rw [CostMatrix.foldl_reduceColumn_eq_mirror]
  show ((l.foldl CostMatrix.reduceRow (CostMatrix.mirrorState s)).1).mirror = _
  rw [CostMatrix.foldl_reduceRow_fst l hl]
  rfl

/-- The result of `ReduceMatrix` in closed form: flags and dimensions are kept, the cells
are the fully reduced ones. -/
theorem CostMatrix.ReduceMatrix_fst (m : CostMatrix) :
    m.ReduceMatrix.1 = m.withCells m.fullyReduced := by
  unfold CostMatrix.ReduceMatrix
  rw [CostMatrix.foldl_reduceColumn_fst _ (List.nodup_range _),
    CostMatrix.foldl_reduceRow_fst _ (List.nodup_range _)]
  simp only [CostMatrix.withCells_withCells, CostMatrix.withCells_IsRowAvailable,
    CostMatrix.withCells_availableRows, CostMatrix.withCells_availableColumns,
    CostMatrix.withCells_IsColumnAvailable, CostMatrix.withCells_cells,
    CostMatrix.withCells_columnMinimum]
  congr 1
  funext i j
  have hrow : ∀ a b, (if a ∈ List.range m.size ∧ m.IsRowAvailable a = true ∧
        b ∈ m.availableColumns then
        (m.cost_matrix_.cells a b).subMin (m.rowMinimum a)
      else m.cost_matrix_.cells a b) = m.rowReduced a b := by
    intro a b
    simp only [CostMatrix.rowReduced, CostMatrix.mem_availableRows, List.mem_range, and_assoc]
  simp only [hrow]
  simp only [CostMatrix.fullyReduced, CostMatrix.mem_availableColumns, List.mem_range]
  by_cases h : (j < m.size ∧ m.IsColumnAvailable j = true) ∧ i ∈ m.availableRows
  · have h2 : i ∈ m.availableRows ∧ j < m.size ∧ m.IsColumnAvailable j = true := ⟨h.2, h.1⟩
    have h3 : j < m.size ∧ m.IsColumnAvailable j = true ∧ i ∈ m.availableRows :=
      ⟨h.1.1, h.1.2, h.2⟩
    rw [if_pos h3, if_pos h2]
  · have h2 : ¬ (i ∈ m.availableRows ∧ j < m.size ∧ m.IsColumnAvailable j = true) :=
      fun h2 => h ⟨h2.2, h2.1⟩
    have h3 : ¬ (j < m.size ∧ m.IsColumnAvailable j = true ∧ i ∈ m.availableRows) :=
      fun h3 => h ⟨⟨h3.1, h3.2.1⟩, h3.2.2⟩
    rw [if_neg h3, if_neg h2]

theorem CostMatrix.rowReduced_infinite (m : CostMatrix) (i j : Nat)
    (h : m.cost_matrix_.cells i j = .infinite) : m.rowReduced i j = .infinite := by
  unfold CostMatrix.rowReduced
  split
  · rw [h, CostMatrixInteger.subMin_infinite]
  · exact h

theorem CostMatrix.rowReduced_ne_infinite (m : CostMatrix) (i j : Nat)
    (h : m.cost_matrix_.cells i j ≠ .infinite) : m.rowReduced i j ≠ .infinite := by
  unfold CostMatrix.rowReduced
  split
  · exact CostMatrixInteger.subMin_ne_infinite _ _ h
  · exact h

theorem CostMatrix.fullyReduced_infinite (m : CostMatrix) (i j : Nat)
    (h : m.cost_matrix_.cells i j = .infinite) : m.fullyReduced i j = .infinite := by
  unfold CostMatrix.fullyReduced
  split
  · rw [m.rowReduced_infinite i j h, CostMatrixInteger.subMin_infinite]
  · exact m.rowReduced_infinite i j h

theorem CostMatrix.fullyReduced_outside (m : CostMatrix) (i j : Nat)
    (h : ¬ (i ∈ m.availableRows ∧ j ∈ m.availableColumns)) :
    m.fullyReduced i j = m.cost_matrix_.cells i j := by
  simp only [CostMatrix.fullyReduced, CostMatrix.rowReduced, if_neg h]

/-- A zero left by the row pass in an available cell survives the column pass. -/
theorem CostMatrix.fullyReduced_zero (m : CostMatrix) (i j : Nat)
    (hi : i ∈ m.availableRows) (h : m.rowReduced i j = .finite 0) :
    m.fullyReduced i j = .finite 0 := by
  unfold CostMatrix.fullyReduced
  split
  · have hmem : CostMatrixInteger.finite 0 ∈ m.availableRows.map fun r => m.rowReduced r j :=
      List.mem_map.2 ⟨i, hi, h⟩
    rw [minimumOf_eq_zero _ hmem, h, CostMatrixInteger.subMin_self]
  · exact h

theorem CostMatrix.rowHasFinite_eq_true (m : CostMatrix) (r : Nat) :
    m.rowHasFinite r = true ↔
      ∃ c, c ∈ m.availableColumns ∧ m.cost_matrix_.cells r c ≠ .infinite := by
  simp [CostMatrix.rowHasFinite]

theorem CostMatrix.rowHasFinite_eq_false (m : CostMatrix) (r : Nat) :
    m.rowHasFinite r = false ↔
      ∀ c, c ∈ m.availableColumns → m.cost_matrix_.cells r c = .infinite := by
  simp [CostMatrix.rowHasFinite]

theorem CostMatrix.columnHasFinite_eq_true (m : CostMatrix) (c : Nat) :
    m.columnHasFinite c = true ↔
      ∃ r, r ∈ m.availableRows ∧ m.cost_matrix_.cells r c ≠ .infinite := by
  simp [CostMatrix.columnHasFinite]

theorem CostMatrix.columnHasFinite_eq_false (m : CostMatrix) (c : Nat) :
    m.columnHasFinite c = false ↔
      ∀ r, r ∈ m.availableRows → m.cost_matrix_.cells r c = .infinite := by
  simp [CostMatrix.columnHasFinite]

/-- A row without a finite available cell keeps all its cells. -/
theorem CostMatrix.fullyReduced_row_untouched (m : CostMatrix) (r : Nat)
    (h : m.rowHasFinite r = false) (j : Nat) :
    m.fullyReduced r j = m.cost_matrix_.cells r j := by
  by_cases hj : j ∈ m.availableColumns
  · have hinf := (m.rowHasFinite_eq_false r).1 h j hj
    rw [m.fullyReduced_infinite r j hinf, hinf]
  · exact m.fullyReduced_outside r j (fun hh => hj hh.2)

/-- A column without a finite available cell keeps all its cells. -/
theorem CostMatrix.fullyReduced_column_untouched (m : CostMatrix) (c : Nat)
    (h : m.columnHasFinite c = false) (i : Nat) :
    m.fullyReduced i c = m.cost_matrix_.cells i c := by
  by_cases hi : i ∈ m.availableRows
  · have hinf := (m.columnHasFinite_eq_false c).1 h i hi
    rw [m.fullyReduced_infinite i c hinf, hinf]
  · exact m.fullyReduced_outside i c (fun hh => hi hh.1)

/-- An available row with a finite available cell has minimum 0 after the reduction. -/
theorem CostMatrix.rowMinimum_fullyReduced (m : CostMatrix) (r : Nat)
    (hr : r ∈ m.availableRows) (h : m.rowHasFinite r = true) :
    minimumOf (m.availableColumns.map fun c => m.fullyReduced r c) = .finite 0 := by
  obtain ⟨c0, hc0, hfin⟩ := (m.rowHasFinite_eq_true r).1 h
  cases hmin : m.rowMinimum r with
  | infinite =>
    exact absurd ((minimumOf_eq_infinite_iff _).1 hmin _ (List.mem_map.2 ⟨c0, hc0, rfl⟩)) hfin
  | finite k =>
    obtain ⟨c1, hc1, hval⟩ := List.mem_map.1 (minimumOf_mem _ k hmin)
    have hrow : m.rowReduced r c1 = .finite 0 := by
      simp only [CostMatrix.rowReduced, hr, hc1, and_self, if_true, hval, hmin,
        CostMatrixInteger.subMin_self]
    exact minimumOf_eq_zero _ (List.mem_map.2 ⟨c1, hc1, m.fullyReduced_zero r c1 hr hrow⟩)

/-- An available column with a finite available cell has minimum 0 after the reduction. -/
theorem CostMatrix.columnMinimum_fullyReduced (m : CostMatrix) (c : Nat)
    (hc : c ∈ m.availableColumns) (h : m.columnHasFinite c = true) :
    minimumOf (m.availableRows.map fun r => m.fullyReduced r c) = .finite 0 := by
  obtain ⟨r0, hr0, hfin⟩ := (m.columnHasFinite_eq_true c).1 h
  cases hmin : minimumOf (m.availableRows.map fun r => m.rowReduced r c) with
  | infinite =>
    exact absurd ((minimumOf_eq_infinite_iff _).1 hmin _ (List.mem_map.2 ⟨r0, hr0, rfl⟩))
      (m.rowReduced_ne_infinite r0 c hfin)
  | finite k =>
    obtain ⟨r1, hr1, hval⟩ := List.mem_map.1 (minimumOf_mem _ k hmin)
    have hfull : m.fullyReduced r1 c = .finite 0 := by
      simp only [CostMatrix.fullyReduced, hr1, hc, and_self, if_true, hval, hmin,
        CostMatrixInteger.subMin_self]
    exact minimumOf_eq_zero _ (List.mem_map.2 ⟨r1, hr1, hfull⟩)

/-! ## Reduction: the postcondition -/

/-- Claim C6 as stated fails: in `excludedEdge` row 0 is available and has two cells in
available columns, both forbidden; after `ReduceMatrix()` its minimum is infinite, not 0. -/
theorem reduceMatrix_forbidden_row_minimum :
    excludedEdge.size = 2 ∧ excludedEdge.IsRowAvailable 0 = true ∧
      excludedEdge.availableColumns = [0, 1] ∧
      excludedEdge.ReduceMatrix.1.IsRowAvailable 0 = true ∧
      excludedEdge.ReduceMatrix.1.availableColumns = [0, 1] ∧
      excludedEdge.ReduceMatrix.1.rowMinimum 0 = .infinite ∧
      excludedEdge.ReduceMatrix.1.rowMinimum 0 ≠ .finite 0 := by
  refine ⟨rfl, rfl, rfl, rfl, rfl, rfl, by decide⟩

/-- Claim C6, amended: `ReduceMatrix()` keeps flags and dimensions.  Afterwards every
available row in range with a finite cell in an available column has minimum 0 among its
cells in available columns, and every available column in range with a finite cell in an
available row has minimum 0 among its cells in available rows.  Every row or column whose
available cells are all infinite, in particular one with no available cell at all, keeps
every cell, and its minimum stays infinite. -/
theorem reduceMatrix_minima (m : CostMatrix) :
    (m.ReduceMatrix.1.cost_matrix_.dims = m.cost_matrix_.dims ∧
        m.ReduceMatrix.1.row_available_ = m.row_available_ ∧
        m.ReduceMatrix.1.column_available_ = m.column_available_) ∧
      (∀ r, r < m.size → m.IsRowAvailable r = true → m.rowHasFinite r = true →
        m.ReduceMatrix.1.rowMinimum r = .finite 0) ∧
      (∀ c, c < m.size → m.IsColumnAvailable c = true → m.columnHasFinite c = true →
        m.ReduceMatrix.1.columnMinimum c = .finite 0) ∧
      (∀ r, m.rowHasFinite r = false →
        m.ReduceMatrix.1.rowMinimum r = .infinite ∧
          ∀ j, m.ReduceMatrix.1.cost_matrix_.cells r j = m.cost_matrix_.cells r j) ∧
      (∀ c, m.columnHasFinite c = false →
        m.ReduceMatrix.1.columnMinimum c = .infinite ∧
          ∀ i, m.ReduceMatrix.1.cost_matrix_.cells i c = m.cost_matrix_.cells i c) := by
  rw [CostMatrix.ReduceMatrix_fst]
  refine ⟨⟨rfl, rfl, rfl⟩, ?_, ?_, ?_, ?_⟩
  · intro r hr hra h
    rw [CostMatrix.withCells_rowMinimum]
    exact m.rowMinimum_fullyReduced r ((m.mem_availableRows r).2 ⟨hr, hra⟩) h
  · intro c hc hca h
    rw [CostMatrix.withCells_columnMinimum]
    exact m.columnMinimum_fullyReduced c ((m.mem_availableColumns c).2 ⟨hc, hca⟩) h
  · intro r hf
    refine ⟨?_, fun j => m.fullyReduced_row_untouched r hf j⟩
    rw [CostMatrix.withCells_rowMinimum]
    refine (minimumOf_eq_infinite_iff _).2 ?_
    intro x hx
    obtain ⟨j, hj, rfl⟩ := List.mem_map.1 hx
    exact m.fullyReduced_infinite r j ((m.rowHasFinite_eq_false r).1 hf j hj)
  · intro c hf
    refine ⟨?_, fun i => m.fullyReduced_column_untouched c hf i⟩
    rw [CostMatrix.withCells_columnMinimum]
    refine (minimumOf_eq_infinite_iff _).2 ?_
    intro x hx
    obtain ⟨i, hi, rfl⟩ := List.mem_map.1 hx
    exact m.fullyReduced_infinite i c ((m.columnHasFinite_eq_false c).1 hf i hi)

/-- Witness for the amended C6.  On `excludedEdge` row 1 and column 0 are available, in
range, and hold the finite cost of edge (1, 0), so both end with minimum 0, while row 0
and column 1 hold forbidden cells only and keep them.  On `noColumnLeft` row 0 is
available and has no available cell at all: it keeps its cells and an infinite minimum. -/
theorem reduceMatrix_minima_witness :
    ((1 < excludedEdge.size ∧ excludedEdge.IsRowAvailable 1 = true ∧
          excludedEdge.rowHasFinite 1 = true) ∧
        excludedEdge.ReduceMatrix.1.rowMinimum 1 = .finite 0) ∧
      ((0 < excludedEdge.size ∧ excludedEdge.IsColumnAvailable 0 = true ∧
          excludedEdge.columnHasFinite 0 = true) ∧
        excludedEdge.ReduceMatrix.1.columnMinimum 0 = .finite 0) ∧
      (excludedEdge.rowHasFinite 0 = false ∧
        excludedEdge.ReduceMatrix.1.rowMinimum 0 = .infinite ∧
        ∀ j, excludedEdge.ReduceMatrix.1.cost_matrix_.cells 0 j =
          excludedEdge.cost_matrix_.cells 0 j) ∧
      (excludedEdge.columnHasFinite 1 = false ∧
        excludedEdge.ReduceMatrix.1.columnMinimum 1 = .infinite ∧
        ∀ i, excludedEdge.ReduceMatrix.1.cost_matrix_.cells i 1 =
          excludedEdge.cost_matrix_.cells i 1) ∧
      ((noColumnLeft.IsRowAvailable 0 = true ∧ noColumnLeft.availableColumns = [] ∧
          noColumnLeft.rowHasFinite 0 = false) ∧
        noColumnLeft.ReduceMatrix.1.rowMinimum 0 = .infinite ∧
        ∀ j, noColumnLeft.ReduceMatrix.1.cost_matrix_.cells 0 j =
          noColumnLeft.cost_matrix_.cells 0 j) :=
  ⟨⟨⟨by decide, rfl, rfl⟩, (reduceMatrix_minima excludedEdge).2.1 1 (by decide) rfl rfl⟩,
    ⟨⟨by decide, rfl, rfl⟩, (reduceMatrix_minima excludedEdge).2.2.1 0 (by decide) rfl rfl⟩,
    ⟨rfl, (reduceMatrix_minima excludedEdge).2.2.2.1 0 rfl⟩,
    ⟨rfl, (reduceMatrix_minima excludedEdge).2.2.2.2 1 rfl⟩,
    ⟨⟨rfl, rfl, rfl⟩, (reduceMatrix_minima noColumnLeft).2.2.2.1 0 rfl⟩⟩

end LittleTsp
